import Mathlib

/-!
Verification development for `blockchain_money_transaction.py`.

Shallow embedding conventions:
* Python floats (transaction amounts, balances, mining reward) are modelled as rationals `ℚ`.
* Wall-clock timestamps (`time.time()`) are modelled as explicit `ℕ` parameters passed to the
  operations that would read the clock.
* SHA-256 (`hashlib.sha256(...).hexdigest()` applied to the canonical JSON of the hashed
  fields) is modelled as an abstract function `H : BlockContent → String` over exactly the
  fields that the Python code serializes; theorems are stated for every such `H`.
* ECDSA verification (`VerifyingKey.from_string` + `vk.verify`, including the hex parsing
  that may raise) is modelled as an abstract oracle returning `Except String Unit`:
  `Except.ok ()` is a successful verification, `Except.error e` is any raised exception
  (`BadSignatureError`, `binascii.Error`, malformed key material, ...).
* The unbounded proof-of-work loop `Block.mine` is modelled with explicit fuel, returning
  `none` when the search has not yet succeeded (i.e. the Python loop would still be running).
* `raise ValueError(...)` is modelled as `Except.error`; normal returns as `Except.ok`.
* Python `print` diagnostics carry no state; for `is_chain_valid` the printed offending
  index is additionally modelled by `Blockchain.firstInvalidIndex : Option ℕ`, with
  `is_chain_valid` itself the boolean the Python function returns.
-/

namespace BK

/-- The dictionary produced by `Transaction.to_dict`: the canonical signed content
`{sender_pub, recipient_pub, amount, timestamp}` (the signature is NOT part of it). -/
structure TxDict where
  sender_pub : String
  recipient_pub : String
  amount : ℚ
  timestamp : ℕ
deriving DecidableEq

/-- A transaction as stored: `Transaction.__init__` fields. `signature` is `None`
(modelled `none`) until `sign_transaction` sets it. -/
structure Transaction where
  sender_pub : String
  recipient_pub : String
  amount : ℚ
  signature : Option String
  timestamp : ℕ
deriving DecidableEq

/-- `Transaction.to_dict`. -/
def Transaction.to_dict (t : Transaction) : TxDict :=
  ⟨t.sender_pub, t.recipient_pub, t.amount, t.timestamp⟩

/-- Oracle modelling the body of the `try` block of `Transaction.is_valid`:
unhexlify the sender key, build the verifying key, unhexlify the signature and verify
`json.dumps(to_dict, sort_keys=True)`. `Except.ok ()` models a run that returns normally
(signature accepted); `Except.error e` models any raised exception. -/
abbrev VerifyOracle := String → TxDict → String → Except String Unit

/-- `Transaction.is_valid`. Python truthiness: `if not self.signature` rejects both
`None` and the empty string. The catch-all `except` clause maps every exception to
`False`. -/
def Transaction.is_valid (V : VerifyOracle) (t : Transaction) : Bool :=
  if t.sender_pub = "SYSTEM" then true
  else
    match t.signature with
    | none => false
    | some s =>
      if s = "" then false
      else
        match V t.sender_pub t.to_dict s with
        | Except.ok _ => true
        | Except.error _ => false

/-- The exact content serialized by `Block.calculate_hash`: index, timestamp,
transactions (each `to_dict` plus its signature — i.e. all `Transaction` fields),
previous_hash, nonce. The stored `hash` field itself is not part of it. -/
structure BlockContent where
  index : ℕ
  timestamp : ℕ
  transactions : List Transaction
  previous_hash : String
  nonce : ℕ
deriving DecidableEq

/-- Abstract model of `hashlib.sha256(json.dumps(...)).hexdigest()`. -/
abbrev HashFn := BlockContent → String

/-- A block as stored: `Block.__init__` fields. -/
structure Block where
  index : ℕ
  timestamp : ℕ
  transactions : List Transaction
  previous_hash : String
  nonce : ℕ
  hash : String
deriving DecidableEq

/-- The hashed content of a block. -/
def Block.content (b : Block) : BlockContent :=
  ⟨b.index, b.timestamp, b.transactions, b.previous_hash, b.nonce⟩

/-- `Block.calculate_hash`. -/
def Block.calculate_hash (H : HashFn) (b : Block) : String :=
  H b.content

/-- `Block.__init__`: nonce starts at 0 and the stored hash is initialised to
`calculate_hash()`. `ts` is the `time.time()` value read at construction. -/
def Block.make (H : HashFn) (index : ℕ) (transactions : List Transaction)
    (previous_hash : String) (ts : ℕ) : Block :=
  let b : Block := ⟨index, ts, transactions, previous_hash, 0, ""⟩
  { b with hash := b.calculate_hash H }

/-- The proof-of-work target `'0' * difficulty`. -/
def targetOf (difficulty : ℕ) : String :=
  String.mk (List.replicate difficulty (Char.ofNat 48))

/-- Helper for `str.startswith`: does the second character list begin with the first?
Structural recursion so that it computes by kernel reduction. -/
def charsLead : List Char → List Char → Bool
  | [], _ => true
  | _ :: _, [] => false
  | c :: cs, d :: ds => c == d && charsLead cs ds

/-- Python `s.startswith(p)`: `p`'s characters are an initial segment of `s`'s. -/
def strStartsWith (s p : String) : Bool :=
  charsLead p.data s.data

/-- One iteration of the `while` loop body of `Block.mine`:
`self.nonce += 1; self.hash = self.calculate_hash()`. -/
def Block.mineStep (H : HashFn) (b : Block) : Block :=
  let b1 : Block := { b with nonce := b.nonce + 1 }
  { b1 with hash := b1.calculate_hash H }

/-- `Block.mine(difficulty)` with explicit fuel for the unbounded search.
`some b` models the loop terminating with final state `b`; `none` models the loop
still running after `fuel` iterations. -/
def Block.mineAux (H : HashFn) (difficulty : ℕ) : ℕ → Block → Option Block
  | 0, b => if strStartsWith b.hash (targetOf difficulty) then some b else none
  | fuel + 1, b =>
    if strStartsWith b.hash (targetOf difficulty) then some b
    else Block.mineAux H difficulty fuel (Block.mineStep H b)

/-- `Blockchain` state: `chain`, `difficulty`, `pending_transactions`, `mining_reward`. -/
structure Blockchain where
  chain : List Block
  difficulty : ℕ
  pending_transactions : List Transaction
  mining_reward : ℚ
deriving DecidableEq

/-- `Blockchain.create_genesis_block`: `Block(0, [], '0')` (the redundant
`genesis.hash = genesis.calculate_hash()` recomputes the value `Block.__init__`
already stored). -/
def Blockchain.create_genesis_block (H : HashFn) (ts : ℕ) : Block :=
  Block.make H 0 [] "0" ts

/-- `Blockchain.__init__(difficulty, mining_reward)` followed by the genesis append. -/
def Blockchain.start (H : HashFn) (difficulty : ℕ) (mining_reward : ℚ) (ts : ℕ) : Blockchain :=
  ⟨[Blockchain.create_genesis_block H ts], difficulty, [], mining_reward⟩

/-- `Blockchain.get_latest_block`: `self.chain[-1]` (`none` models the IndexError on an
empty chain, which is unreachable through the public operations). -/
def Blockchain.get_latest_block (bc : Blockchain) : Option Block :=
  bc.chain.getLast?

/-- The loop body of `get_balance_of_address` for one transaction: subtract when the
address is the sender, add when it is the recipient (both, when it is both). -/
def txStep (address : String) (balance : ℚ) (t : Transaction) : ℚ :=
  let b1 := if t.sender_pub = address then balance - t.amount else balance
  if t.recipient_pub = address then b1 + t.amount else b1

/-- `Blockchain.get_balance_of_address`: fold over every block's transactions in chain
order, then over the pending pool. -/
def Blockchain.get_balance_of_address (bc : Blockchain) (address : String) : ℚ :=
  let fromChain := bc.chain.foldl (fun acc blk => blk.transactions.foldl (txStep address) acc) 0
  bc.pending_transactions.foldl (txStep address) fromChain

/-- `Blockchain.add_transaction`. `Except.error` models the raised `ValueError`;
`Except.ok (b, bc2)` models returning the boolean `b` with post-state `bc2`. -/
def Blockchain.add_transaction (V : VerifyOracle) (bc : Blockchain) (t : Transaction) :
    Except String (Bool × Blockchain) :=
  if t.sender_pub = "" ∨ t.recipient_pub = "" then
    Except.error "Transaction must include sender and recipient public keys"
  else if t.is_valid V = false then
    Except.ok (false, bc)
  else if t.sender_pub ≠ "SYSTEM" ∧ bc.get_balance_of_address t.sender_pub < t.amount then
    Except.ok (false, bc)
  else
    Except.ok (true, { bc with pending_transactions := bc.pending_transactions ++ [t] })

/-- `Blockchain.mine_pending_transactions(miner_address)`: unconditionally append the
reward transaction, build a block from the whole pending set and the tip's hash, mine it,
append it, clear the pool. `rewardTs`/`blockTs` are the two `time.time()` reads; `fuel`
bounds the modelled mining search (`none` = the Python loop has not terminated). -/
def Blockchain.mine_pending_transactions (H : HashFn) (bc : Blockchain)
    (miner_address : String) (rewardTs blockTs fuel : ℕ) : Option Blockchain :=
  let reward_tx : Transaction := ⟨"SYSTEM", miner_address, bc.mining_reward, none, rewardTs⟩
  let pending := bc.pending_transactions ++ [reward_tx]
  match bc.chain.getLast? with
  | none => none
  | some tip =>
    match Block.mineAux H bc.difficulty fuel (Block.make H bc.chain.length pending tip.hash blockTs) with
    | none => none
    | some sealed =>
      some { bc with chain := bc.chain ++ [sealed], pending_transactions := [] }

/-- The three per-block checks of `is_chain_valid` (all reported at the same index, so
their order does not matter for the result): stored hash consistent with content,
linkage to the predecessor's stored hash, all transactions valid. -/
def blockOk (V : VerifyOracle) (H : HashFn) (previous current : Block) : Bool :=
  (current.hash == current.calculate_hash H) &&
  (current.previous_hash == previous.hash) &&
  current.transactions.all (fun t => t.is_valid V)

/-- The loop of `is_chain_valid` over `range(1, len(chain))`, returning the first
index whose checks fail (the index the Python code prints), or `none`. -/
def checkFrom (V : VerifyOracle) (H : HashFn) : Block → List Block → ℕ → Option ℕ
  | _, [], _ => none
  | prev, cur :: rest, i =>
    if blockOk V H prev cur then checkFrom V H cur rest (i + 1) else some i

/-- The first offending index reported by `is_chain_valid` (`none` when the chain
validates). The genesis block at index 0 is never itself checked. -/
def Blockchain.firstInvalidIndex (V : VerifyOracle) (H : HashFn) (bc : Blockchain) : Option ℕ :=
  match bc.chain with
  | [] => none
  | g :: rest => checkFrom V H g rest 1

/-- `Blockchain.is_chain_valid`: the boolean the Python function returns. -/
def Blockchain.is_chain_valid (V : VerifyOracle) (H : HashFn) (bc : Blockchain) : Bool :=
  (bc.firstInvalidIndex V H).isNone

/-- One public mutating call on the ledger. -/
inductive Op where
  | submit (t : Transaction)
  | mine (miner : String) (rewardTs blockTs fuel : ℕ)
deriving DecidableEq

/-- Run one public call. A raised `ValueError` from `add_transaction` leaves the state
unchanged (nothing is mutated before the raise); a rejected transaction likewise. -/
def applyOp (V : VerifyOracle) (H : HashFn) (s : Blockchain) : Op → Option Blockchain
  | Op.submit t =>
    match s.add_transaction V t with
    | Except.error _ => some s
    | Except.ok r => some r.2
  | Op.mine m ts1 ts2 fuel => s.mine_pending_transactions H m ts1 ts2 fuel

/-- Run a sequence of public calls. -/
def applyOps (V : VerifyOracle) (H : HashFn) : Blockchain → List Op → Option Blockchain
  | s, [] => some s
  | s, op :: ops =>
    match applyOp V H s op with
    | none => none
    | some s2 => applyOps V H s2 ops

/-- States reachable from construction (`Blockchain(...)` creates the genesis) by any
sequence of `add_transaction` / `mine_pending_transactions` calls. -/
def Reachable (V : VerifyOracle) (H : HashFn) (s : Blockchain) : Prop :=
  ∃ d r ts ops, applyOps V H (Blockchain.start H d r ts) ops = some s

/-- Decidable equality for the `Except` results of `add_transaction` (not derived in core). -/
instance {ε α : Type} [DecidableEq ε] [DecidableEq α] : DecidableEq (Except ε α) := fun a b =>
  match a, b with
  | Except.error e, Except.error f =>
    if h : e = f then isTrue (by rw [h]) else isFalse (fun hc => h (Except.error.inj hc))
  | Except.error _, Except.ok _ => isFalse (fun hc => Except.noConfusion hc)
  | Except.ok _, Except.error _ => isFalse (fun hc => Except.noConfusion hc)
  | Except.ok x, Except.ok y =>
    if h : x = y then isTrue (by rw [h]) else isFalse (fun hc => h (Except.ok.inj hc))

/-! Concrete instances used by the witnesses and counterexamples. `Hw` is a toy stand-in
for the abstract SHA-256 model (the claims' theorems are universally quantified over the
hash function; the concrete instances only have to *evaluate*). `Vno` models an ECDSA
layer in which every verification attempt raises (e.g. unparsable key material); `Vok`
models one in which every signature verifies. -/

def Hw : HashFn := fun c => if c.nonce = 0 then "0" else "1"

def Vno : VerifyOracle := fun _ _ _ => Except.error "unparsable key or signature"

def Vok : VerifyOracle := fun _ _ _ => Except.ok ()

/-- A freshly constructed ledger: difficulty 1, mining reward 50, clock at 0. -/
def s0 : Blockchain := Blockchain.start Hw 1 50 0

/-- The reward transaction minted when `"M"` mines `s0`. -/
def rewardM : Transaction := ⟨"SYSTEM", "M", 50, none, 0⟩

/-- The genesis block of `s0` under `Hw`. -/
def g0 : Block := ⟨0, 0, [], "0", 0, "0"⟩

/-- The block sealed by mining `s0`'s (empty) pending pool. -/
def b1 : Block := ⟨1, 0, [rewardM], "0", 0, "0"⟩

/-- The state after `s0.mine_pending_transactions("M")`. -/
def sC1 : Blockchain := ⟨[g0, b1], 1, [], 50⟩

/-- `g0` with its stored `nonce` field mutated (5 instead of 0); every other stored
field, including the stored hash, untouched. -/
def g0mut : Block := ⟨0, 0, [], "0", 5, "0"⟩

/-- `b1` with its stored `nonce` field mutated (7 instead of 0); stored hash untouched. -/
def b1mut : Block := ⟨1, 0, [rewardM], "0", 7, "0"⟩

/-- A signed transaction whose amount (5) exceeds the sender's balance (0) on `s0`. -/
def txOver : Transaction := ⟨"A", "B", 5, some "sg", 0⟩

/-- A transaction with an empty sender field. -/
def txNoSender : Transaction := ⟨"", "B", 1, none, 0⟩

/-- A user transaction carrying a signature (valid under `Vok`, invalid under `Vno`). -/
def txBadSig : Transaction := ⟨"A", "B", 1, some "sig", 0⟩

/-- A mint-sentinel transaction used to exercise the success branch. -/
def txMint : Transaction := ⟨"SYSTEM", "D", 9, none, 3⟩

/-! Specification-side definitions used by the theorems. -/

/-- A sealed (non-genesis) block as produced by mining: stored hash consistent with
content, hash meeting the difficulty target, all transactions valid. -/
def GoodBlock (V : VerifyOracle) (H : HashFn) (d : ℕ) (b : Block) : Prop :=
  b.hash = b.calculate_hash H ∧ strStartsWith b.hash (targetOf d) = true ∧
  ∀ t ∈ b.transactions, t.is_valid V = true

/-- `ChainGood V H d g rest`: every block of `rest` links to its predecessor
(starting from `g`) and is a good sealed block. -/
def ChainGood (V : VerifyOracle) (H : HashFn) (d : ℕ) : Block → List Block → Prop
  | _, [] => True
  | prev, b :: rest => b.previous_hash = prev.hash ∧ GoodBlock V H d b ∧ ChainGood V H d b rest

/-- The inductive invariant: the chain is a genesis block followed by good, linked,
sealed blocks, and every pending transaction passed `is_valid`. -/
def Inv (V : VerifyOracle) (H : HashFn) (s : Blockchain) : Prop :=
  (∃ g rest, s.chain = g :: rest ∧ ChainGood V H s.difficulty g rest) ∧
  ∀ t ∈ s.pending_transactions, t.is_valid V = true

/-- The net effect of one transaction on one address's balance: `+amount` when the
address is the recipient, `-amount` when it is the sender (0 net for a self-send). -/
def txDelta (address : String) (t : Transaction) : ℚ :=
  (if t.recipient_pub = address then t.amount else 0) -
  (if t.sender_pub = address then t.amount else 0)

/-- Every transaction the ledger accounts for: all block transactions in chain order,
then the pending pool — exactly the iteration order of `get_balance_of_address`. -/
def allTxs (bc : Blockchain) : List Transaction :=
  (bc.chain.map Block.transactions).flatten ++ bc.pending_transactions

/-- The contribution of the reward (mint-sentinel) transactions to an address's balance. -/
def rewardDelta (bc : Blockchain) (address : String) : ℚ :=
  (((allTxs bc).filter (fun t => t.sender_pub == "SYSTEM")).map (txDelta address)).sum


/-! Basic lemmas about block construction and mining. -/

theorem Block.make_hash_consistent (H : HashFn) (index : ℕ) (txs : List Transaction)
    (p : String) (ts : ℕ) :
    (Block.make H index txs p ts).hash = (Block.make H index txs p ts).calculate_hash H := rfl

theorem Block.make_fields (H : HashFn) (index : ℕ) (txs : List Transaction)
    (p : String) (ts : ℕ) :
    (Block.make H index txs p ts).index = index ∧
    (Block.make H index txs p ts).timestamp = ts ∧
    (Block.make H index txs p ts).transactions = txs ∧
    (Block.make H index txs p ts).previous_hash = p ∧
    (Block.make H index txs p ts).nonce = 0 :=
  ⟨rfl, rfl, rfl, rfl, rfl⟩

theorem Block.mineStep_hash_consistent (H : HashFn) (b : Block) :
    (Block.mineStep H b).hash = (Block.mineStep H b).calculate_hash H := rfl

theorem Block.mineStep_fields (H : HashFn) (b : Block) :
    (Block.mineStep H b).index = b.index ∧
    (Block.mineStep H b).timestamp = b.timestamp ∧
    (Block.mineStep H b).transactions = b.transactions ∧
    (Block.mineStep H b).previous_hash = b.previous_hash :=
  ⟨rfl, rfl, rfl, rfl⟩

/-- What a terminating run of the `Block.mine` loop guarantees: the final state has a
hash meeting the difficulty target, the stored hash is still consistent with the content,
and all fields other than `nonce`/`hash` are untouched. -/
theorem mineAux_spec (H : HashFn) (d : ℕ) :
    ∀ (fuel : ℕ) (b b2 : Block), b.hash = b.calculate_hash H →
      Block.mineAux H d fuel b = some b2 →
      b2.hash = b2.calculate_hash H ∧
      strStartsWith b2.hash (targetOf d) = true ∧
      b2.index = b.index ∧ b2.timestamp = b.timestamp ∧
      b2.transactions = b.transactions ∧ b2.previous_hash = b.previous_hash := by
  intro fuel
  induction fuel with
  | zero =>
    intro b b2 hcons h
    simp only [Block.mineAux] at h
    split at h
    · cases h
      exact ⟨hcons, by assumption, rfl, rfl, rfl, rfl⟩
    · cases h
  | succ n ih =>
    intro b b2 hcons h
    simp only [Block.mineAux] at h
    split at h
    · cases h
      exact ⟨hcons, by assumption, rfl, rfl, rfl, rfl⟩
    · have h2 := ih (Block.mineStep H b) b2 (Block.mineStep_hash_consistent H b) h
      exact ⟨h2.1, h2.2.1, h2.2.2.1, h2.2.2.2.1, h2.2.2.2.2.1, h2.2.2.2.2.2⟩

/-! The chain invariant maintained by the public operations. -/

theorem chainGood_append (V : VerifyOracle) (H : HashFn) (d : ℕ) :
    ∀ (rest : List Block) (g tip b : Block), ChainGood V H d g rest →
      (g :: rest).getLast? = some tip → GoodBlock V H d b → b.previous_hash = tip.hash →
      ChainGood V H d g (rest ++ [b]) := by
  intro rest
  induction rest with
  | nil =>
    intro g tip b _ hlast hgood hlink
    have : g = tip := by simpa using hlast
    exact ⟨by rw [hlink, this], hgood, trivial⟩
  | cons c rest2 ih =>
    intro g tip b hcg hlast hgood hlink
    have hlast2 : (c :: rest2).getLast? = some tip := by
      simpa [List.getLast?_cons_cons] using hlast
    exact ⟨hcg.1, hcg.2.1, ih c tip b hcg.2.2 hlast2 hgood hlink⟩

theorem chainGood_mem (V : VerifyOracle) (H : HashFn) (d : ℕ) :
    ∀ (rest : List Block) (g : Block), ChainGood V H d g rest →
      ∀ b ∈ rest, GoodBlock V H d b := by
  intro rest
  induction rest with
  | nil => intro g _ b hb; cases hb
  | cons c rest2 ih =>
    intro g hcg b hb
    rcases List.mem_cons.mp hb with h | h
    · exact h ▸ hcg.2.1
    · exact ih c hcg.2.2 b h

theorem chainGood_get (V : VerifyOracle) (H : HashFn) (d : ℕ) :
    ∀ (rest : List Block) (g : Block), ChainGood V H d g rest →
      ∀ (i : ℕ) (h : i + 1 < (g :: rest).length),
        ((g :: rest).get ⟨i + 1, h⟩).previous_hash =
        ((g :: rest).get ⟨i, Nat.lt_of_succ_lt h⟩).hash := by
  intro rest
  induction rest with
  | nil =>
    intro g _ i h
    simp at h
  | cons c rest2 ih =>
    intro g hcg i h
    match i with
    | 0 => exact hcg.1
    | Nat.succ k =>
      have h2 : k + 1 < (c :: rest2).length := by
        simp only [List.length_cons] at h ⊢
        omega
      exact ih c hcg.2.2 k h2

theorem is_valid_system (V : VerifyOracle) (t : Transaction) (h : t.sender_pub = "SYSTEM") :
    t.is_valid V = true := by
  simp [Transaction.is_valid, h]

theorem inv_start (V : VerifyOracle) (H : HashFn) (d : ℕ) (r : ℚ) (ts : ℕ) :
    Inv V H (Blockchain.start H d r ts) :=
  ⟨⟨Blockchain.create_genesis_block H ts, [], rfl, trivial⟩, by intro t ht; cases ht⟩

/-- The three possible non-raising outcomes of `add_transaction`, in terms of the
returned pair. -/
theorem add_transaction_result (V : VerifyOracle) (bc : Blockchain) (t : Transaction)
    (b : Bool) (s2 : Blockchain) (h : bc.add_transaction V t = Except.ok (b, s2)) :
    s2 = bc ∨
      (s2 = { bc with pending_transactions := bc.pending_transactions ++ [t] } ∧
        t.is_valid V = true ∧ b = true) := by
  unfold Blockchain.add_transaction at h
  split at h
  · cases h
  · split at h
    · cases h
      exact Or.inl rfl
    · split at h
      · cases h
        exact Or.inl rfl
      · cases h
        rename_i hval _
        refine Or.inr ⟨rfl, ?_, rfl⟩
        simpa using hval

/-- Unfolding of a successful `mine_pending_transactions` call. -/
theorem mine_pending_result (H : HashFn) (bc : Blockchain) (m : String)
    (ts1 ts2 fuel : ℕ) (s2 : Blockchain)
    (h : bc.mine_pending_transactions H m ts1 ts2 fuel = some s2) :
    ∃ tip sealed,
      bc.chain.getLast? = some tip ∧
      Block.mineAux H bc.difficulty fuel
        (Block.make H bc.chain.length
          (bc.pending_transactions ++ [⟨"SYSTEM", m, bc.mining_reward, none, ts1⟩])
          tip.hash ts2) = some sealed ∧
      s2 = { bc with chain := bc.chain ++ [sealed], pending_transactions := [] } := by
  unfold Blockchain.mine_pending_transactions at h
  split at h
  · cases h
  · rename_i tip htip
    dsimp only at h
    split at h
    · cases h
    · rename_i sealed hseal
      cases h
      exact ⟨tip, sealed, htip, hseal, rfl⟩

theorem applyOp_inv (V : VerifyOracle) (H : HashFn) (s : Blockchain) (op : Op)
    (s2 : Blockchain) (hInv : Inv V H s) (h : applyOp V H s op = some s2) : Inv V H s2 := by
  cases op with
  | submit t =>
    simp only [applyOp] at h
    split at h
    · cases h
      exact hInv
    · rename_i r hadd
      cases h
      rcases add_transaction_result V s t r.1 r.2 hadd with heq2 | ⟨heq2, hval, -⟩
      · rw [heq2]
        exact hInv
      · rw [heq2]
        obtain ⟨⟨g, rest, hc, hgood⟩, hpend⟩ := hInv
        refine ⟨⟨g, rest, hc, hgood⟩, ?_⟩
        intro u hu
        rcases List.mem_append.mp hu with h1 | h1
        · exact hpend u h1
        · rcases List.mem_singleton.mp h1 with rfl
          exact hval
  | mine m ts1 ts2 fuel =>
    obtain ⟨tip, sealed, htip, hseal, rfl⟩ := mine_pending_result H s m ts1 ts2 fuel s2 h
    obtain ⟨⟨g, rest, hc, hgood⟩, hpend⟩ := hInv
    have hmk := mineAux_spec H s.difficulty fuel _ sealed
      (Block.make_hash_consistent H s.chain.length _ tip.hash ts2) hseal
    have hsealedGood : GoodBlock V H s.difficulty sealed := by
      refine ⟨hmk.1, hmk.2.1, ?_⟩
      intro u hu
      rw [hmk.2.2.2.2.1] at hu
      rcases List.mem_append.mp ((Block.make_fields H _ _ _ _).2.2.1 ▸ hu) with h1 | h1
      · exact hpend u h1
      · rcases List.mem_singleton.mp h1 with rfl
        exact is_valid_system V _ rfl
    have hlink : sealed.previous_hash = tip.hash := by
      rw [hmk.2.2.2.2.2]
      exact (Block.make_fields H _ _ _ _).2.2.2.1
    refine ⟨⟨g, rest ++ [sealed], ?_, ?_⟩, by intro u hu; cases hu⟩
    · rw [hc]
      rfl
    · exact chainGood_append V H s.difficulty rest g tip sealed hgood (hc ▸ htip) hsealedGood hlink

theorem applyOps_inv (V : VerifyOracle) (H : HashFn) :
    ∀ (ops : List Op) (s s2 : Blockchain), Inv V H s →
      applyOps V H s ops = some s2 → Inv V H s2 := by
  intro ops
  induction ops with
  | nil =>
    intro s s2 hInv h
    cases h
    exact hInv
  | cons op rest ih =>
    intro s s2 hInv h
    simp only [applyOps] at h
    split at h
    · cases h
    · rename_i s3 hop
      exact ih s3 s2 (applyOp_inv V H s op s3 hInv hop) h

theorem reachable_inv (V : VerifyOracle) (H : HashFn) (s : Blockchain)
    (h : Reachable V H s) : Inv V H s := by
  obtain ⟨d, r, ts, ops, hops⟩ := h
  exact applyOps_inv V H ops _ s (inv_start V H d r ts) hops

/-! Lemmas about the `is_chain_valid` loop. -/

theorem checkFrom_none (V : VerifyOracle) (H : HashFn) (d : ℕ) :
    ∀ (l : List Block) (g : Block) (j : ℕ), ChainGood V H d g l →
      checkFrom V H g l j = none := by
  intro l
  induction l with
  | nil => intro g j _; rfl
  | cons c rest ih =>
    intro g j hcg
    have hok : blockOk V H g c = true := by
      simp only [blockOk, Bool.and_eq_true, beq_iff_eq, List.all_eq_true]
      exact ⟨⟨hcg.2.1.1, hcg.1⟩, fun t ht => hcg.2.1.2.2 t ht⟩
    simp only [checkFrom, hok, if_true]
    exact ih c (j + 1) hcg.2.2

theorem checkFrom_broken (V : VerifyOracle) (H : HashFn) :
    ∀ (l : List Block) (g : Block) (k j : ℕ) (b2 : Block),
      k < l.length →
      checkFrom V H g l j = none →
      b2.hash ≠ b2.calculate_hash H →
      checkFrom V H g (l.set k b2) j = some (j + k) := by
  intro l
  induction l with
  | nil =>
    intro g k j b2 hk
    simp at hk
  | cons c rest ih =>
    intro g k j b2 hk hnone hbad
    match k with
    | 0 =>
      have hb : blockOk V H g b2 = false := by
        simp only [blockOk, Bool.and_eq_false_iff, beq_eq_false_iff_ne, ne_eq]
        exact Or.inl (Or.inl hbad)
      simp only [List.set, checkFrom, hb, Bool.false_eq_true, if_false, Nat.add_zero]
    | Nat.succ k2 =>
      simp only [checkFrom] at hnone
      split at hnone
      · rename_i hok
        have hk2 : k2 < rest.length := by
          simp only [List.length_cons] at hk
          omega
        have := ih c k2 (j + 1) b2 hk2 hnone hbad
        simp only [List.set, checkFrom, hok, if_true]
        rw [this]
        congr 1
        omega
      · cases hnone

/-! Lemmas about balance derivation. -/

theorem txStep_eq (address : String) (c : ℚ) (t : Transaction) :
    txStep address c t = c + txDelta address t := by
  unfold txStep txDelta
  split_ifs <;> ring

theorem foldl_txStep (address : String) :
    ∀ (l : List Transaction) (c : ℚ),
      l.foldl (txStep address) c = c + (l.map (txDelta address)).sum := by
  intro l
  induction l with
  | nil => intro c; simp
  | cons t rest ih =>
    intro c
    simp only [List.foldl_cons, List.map_cons, List.sum_cons]
    rw [ih, txStep_eq]
    ring

theorem chain_foldl_eq (address : String) :
    ∀ (chain : List Block) (c : ℚ),
      chain.foldl (fun acc blk => blk.transactions.foldl (txStep address) acc) c =
        c + (((chain.map Block.transactions).flatten).map (txDelta address)).sum := by
  intro chain
  induction chain with
  | nil => intro c; simp
  | cons blk rest ih =>
    intro c
    simp only [List.foldl_cons, List.map_cons, List.flatten_cons, List.map_append, List.sum_append]
    rw [ih, foldl_txStep]
    ring

theorem get_balance_eq (bc : Blockchain) (address : String) :
    bc.get_balance_of_address address = ((allTxs bc).map (txDelta address)).sum := by
  unfold Blockchain.get_balance_of_address allTxs
  rw [foldl_txStep, chain_foldl_eq]
  rw [List.map_append, List.sum_append]
  ring

theorem get_balance_append_pending (bc : Blockchain) (t : Transaction) (address : String) :
    Blockchain.get_balance_of_address
        { bc with pending_transactions := bc.pending_transactions ++ [t] } address =
      bc.get_balance_of_address address + txDelta address t := by
  unfold Blockchain.get_balance_of_address
  simp only [List.foldl_append, List.foldl_cons, List.foldl_nil]
  rw [txStep_eq]

theorem map_sum_filter_split (p : Transaction → Bool) (f : Transaction → ℚ) :
    ∀ l : List Transaction,
      (l.map f).sum =
        ((l.filter p).map f).sum + ((l.filter (fun t => !(p t))).map f).sum := by
  intro l
  induction l with
  | nil => simp
  | cons t rest ih =>
    by_cases h : p t = true
    · have hpos : List.filter p (t :: rest) = t :: List.filter p rest := by
        simp [List.filter_cons, h]
      have hneg : List.filter (fun x => !(p x)) (t :: rest) = List.filter (fun x => !(p x)) rest := by
        simp [List.filter_cons, h]
      rw [List.map_cons, List.sum_cons, hpos, hneg, List.map_cons, List.sum_cons, ih]
      ring
    · have hpos : List.filter p (t :: rest) = List.filter p rest := by
        simp [List.filter_cons, h]
      have hneg : List.filter (fun x => !(p x)) (t :: rest) = t :: List.filter (fun x => !(p x)) rest := by
        simp [List.filter_cons, h]
      rw [List.map_cons, List.sum_cons, hpos, hneg, List.map_cons, List.sum_cons, ih]
      ring

theorem finset_listsum_swap (S : Finset String) :
    ∀ l : List Transaction,
      (∑ a ∈ S, ((l.map (txDelta a)).sum)) = (l.map (fun t => ∑ a ∈ S, txDelta a t)).sum := by
  intro l
  induction l with
  | nil => simp
  | cons t rest ih =>
    simp only [List.map_cons, List.sum_cons, Finset.sum_add_distrib, ih]

theorem txDelta_total_zero (S : Finset String) (t : Transaction)
    (hs : t.sender_pub ∈ S) (hr : t.recipient_pub ∈ S) :
    (∑ a ∈ S, txDelta a t) = 0 := by
  unfold txDelta
  rw [Finset.sum_sub_distrib, Finset.sum_ite_eq, Finset.sum_ite_eq]
  simp [hs, hr]

/-- A transaction from a non-mint sender that is in neither the pending pool nor any
block, and is never submitted again, cannot appear later: blocks only acquire
transactions from the pending pool plus the freshly minted reward transaction. -/
theorem absent_stays_absent (V : VerifyOracle) (H : HashFn) (t : Transaction)
    (hS : t.sender_pub ≠ "SYSTEM") :
    ∀ (ops : List Op) (s s2 : Blockchain),
      applyOps V H s ops = some s2 →
      Op.submit t ∉ ops →
      t ∉ s.pending_transactions →
      (∀ blk ∈ s.chain, t ∉ blk.transactions) →
      t ∉ s2.pending_transactions ∧ ∀ blk ∈ s2.chain, t ∉ blk.transactions := by
  intro ops
  induction ops with
  | nil =>
    intro s s2 h _ hp hc
    cases h
    exact ⟨hp, hc⟩
  | cons op rest ih =>
    intro s s2 h hmem hp hc
    simp only [applyOps] at h
    split at h
    · cases h
    · rename_i s3 hop
      have hmem2 : Op.submit t ∉ rest := fun hx => hmem (List.mem_cons_of_mem _ hx)
      refine ih s3 s2 h hmem2 ?_ ?_
      all_goals
        cases op with
        | submit u =>
          have hut : u ≠ t := by
            intro he
            exact hmem (by rw [he]; exact List.mem_cons_self _ _)
          simp only [applyOp] at hop
          split at hop
          · cases hop
            first
            | exact hp
            | exact hc
          · rename_i r hadd
            cases hop
            rcases add_transaction_result V s u r.1 r.2 hadd with heq2 | ⟨heq2, -, -⟩
            · rw [heq2]
              first
              | exact hp
              | exact hc
            · rw [heq2]
              first
              | { intro hu
                  rcases List.mem_append.mp hu with h1 | h1
                  · exact hp h1
                  · exact hut (List.mem_singleton.mp h1).symm }
              | exact hc
        | mine m ts1 ts2 fuel =>
          obtain ⟨tip, sealed, htip, hseal, rfl⟩ := mine_pending_result H s m ts1 ts2 fuel s3 hop
          have hmk := mineAux_spec H s.difficulty fuel _ sealed
            (Block.make_hash_consistent H s.chain.length _ tip.hash ts2) hseal
          first
          | exact fun hx => (List.not_mem_nil t) hx
          | { intro blk hblk hin
              rcases List.mem_append.mp hblk with h1 | h1
              · exact hc blk h1 hin
              · rcases List.mem_singleton.mp h1 with rfl
                rw [hmk.2.2.2.2.1] at hin
                rcases List.mem_append.mp ((Block.make_fields H _ _ _ _).2.2.1 ▸ hin) with h2 | h2
                · exact hp h2
                · rcases List.mem_singleton.mp h2 with heq3
                  exact hS (by rw [heq3]) }

/-- Shared helper: `add_transaction` accepts any mint-sentinel transaction with a
non-empty recipient — no signature and no balance check is reached, and the amount
is never inspected. -/
theorem add_transaction_system_accepted (V : VerifyOracle) (bc : Blockchain)
    (t : Transaction) (hs : t.sender_pub = "SYSTEM") (hr : t.recipient_pub ≠ "") :
    bc.add_transaction V t =
      Except.ok (true, { bc with pending_transactions := bc.pending_transactions ++ [t] }) := by
  have hval : t.is_valid V = true := is_valid_system V t hs
  unfold Blockchain.add_transaction
  split_ifs with h1 h2 h3
  · rcases h1 with h | h
    · rw [hs] at h
      exact absurd h (by decide)
    · exact absurd h hr
  · rw [hval] at h2
    exact absurd h2 (by decide)
  · exact absurd hs h3.1
  · rfl

/-! Claim theorems. -/

/-- Claim C1, counterexample: on a freshly built chain the pending pool is empty, yet
`mine_pending_transactions` is not a no-op — it creates a reward transaction, mines a
block containing it, and appends the block, changing the chain. -/
theorem mine_on_empty_pool_not_noop :
    s0.pending_transactions = [] ∧
    s0.mine_pending_transactions Hw "M" 0 0 0 = some sC1 ∧
    sC1.chain.length = 2 ∧
    sC1.chain ≠ s0.chain ∧
    b1 ∈ sC1.chain ∧
    rewardM ∈ b1.transactions ∧
    rewardM.sender_pub = "SYSTEM" := by
  exact ⟨rfl, by decide, rfl, by decide, by decide, by decide, rfl⟩

/-- Claim C1, amended: `mine_pending_transactions` never checks whether the pending
pool is empty; even on an empty pool a successful call appends exactly one new block
whose transaction list is the single synthetic reward transaction, leaves the earlier
chain unchanged, and clears the pool. -/
theorem mine_pending_empty_pool_behavior (H : HashFn) (bc : Blockchain) (m : String)
    (ts1 ts2 fuel : ℕ) (s2 : Blockchain)
    (hpool : bc.pending_transactions = [])
    (h : bc.mine_pending_transactions H m ts1 ts2 fuel = some s2) :
    s2.chain.length = bc.chain.length + 1 ∧
    s2.pending_transactions = [] ∧
    (s2.chain.getLast?).map Block.transactions =
      some [⟨"SYSTEM", m, bc.mining_reward, none, ts1⟩] ∧
    s2.chain.take bc.chain.length = bc.chain := by
  obtain ⟨tip, sealed, htip, hseal, rfl⟩ := mine_pending_result H bc m ts1 ts2 fuel s2 h
  have hmk := mineAux_spec H bc.difficulty fuel _ sealed
    (Block.make_hash_consistent H bc.chain.length _ tip.hash ts2) hseal
  refine ⟨by simp, rfl, ?_, ?_⟩
  · show ((bc.chain ++ [sealed]).getLast?).map Block.transactions = _
    rw [List.getLast?_concat]
    show some sealed.transactions = _
    rw [hmk.2.2.2.2.1, (Block.make_fields H _ _ _ _).2.2.1, hpool]
    rfl
  · show (bc.chain ++ [sealed]).take bc.chain.length = bc.chain
    exact List.take_left bc.chain [sealed]

/-- Claim C1, witness at a concrete input. -/
theorem mine_pending_empty_pool_behavior_witness :
    sC1.chain.length = s0.chain.length + 1 ∧
    sC1.pending_transactions = [] ∧
    (sC1.chain.getLast?).map Block.transactions =
      some [⟨"SYSTEM", "M", s0.mining_reward, none, 0⟩] ∧
    sC1.chain.take s0.chain.length = s0.chain :=
  mine_pending_empty_pool_behavior Hw s0 "M" 0 0 0 sC1 rfl (by decide)

/-- Claim C2, counterexample: a transaction with a negative amount (here a
mint-sentinel transaction of amount −5) is silently accepted by `add_transaction`
into the pending pool — no non-negativity check exists. -/
theorem negative_amount_accepted :
    (⟨"SYSTEM", "B", -5, none, 0⟩ : Transaction).amount < 0 ∧
    s0.add_transaction Vno ⟨"SYSTEM", "B", -5, none, 0⟩ =
      Except.ok (true, { s0 with pending_transactions := [⟨"SYSTEM", "B", -5, none, 0⟩] }) ∧
    (⟨"SYSTEM", "B", -5, none, 0⟩ : Transaction) ∈
      ({ s0 with pending_transactions := [⟨"SYSTEM", "B", -5, none, 0⟩] } :
        Blockchain).pending_transactions := by
  exact ⟨by decide, by decide, by decide⟩

/-- Claim C2, amended: `add_transaction` never inspects the amount's sign; in
particular every mint-sentinel transaction with a non-empty recipient — whatever its
amount, negative included — is accepted into the pending pool. -/
theorem add_transaction_skips_sign_check (V : VerifyOracle) (bc : Blockchain)
    (t : Transaction) (hs : t.sender_pub = "SYSTEM") (hr : t.recipient_pub ≠ "") :
    bc.add_transaction V t =
      Except.ok (true, { bc with pending_transactions := bc.pending_transactions ++ [t] }) :=
  add_transaction_system_accepted V bc t hs hr

/-- Claim C2, witness at a concrete input with a negative amount. -/
theorem add_transaction_skips_sign_check_witness :
    s0.add_transaction Vno ⟨"SYSTEM", "C", -3, none, 1⟩ =
      Except.ok (true, { s0 with pending_transactions :=
        s0.pending_transactions ++ [⟨"SYSTEM", "C", -3, none, 1⟩] }) :=
  add_transaction_skips_sign_check Vno s0 ⟨"SYSTEM", "C", -3, none, 1⟩ rfl (by decide)

/-- Claim C6: `is_valid` is `true` unconditionally for the mint sentinel; otherwise it
is `true` exactly when a non-empty signature is present and the verification oracle
returns success on the canonical `to_dict` content; any raised verification exception
yields `false` (fail closed) — `is_valid` is a total boolean function for every oracle. -/
theorem is_valid_characterization :
    (∀ (V : VerifyOracle) (t : Transaction), t.sender_pub = "SYSTEM" → t.is_valid V = true) ∧
    (∀ (V : VerifyOracle) (t : Transaction), t.sender_pub ≠ "SYSTEM" →
      (t.is_valid V = true ↔
        ∃ sg, t.signature = some sg ∧ sg ≠ "" ∧ V t.sender_pub t.to_dict sg = Except.ok ())) ∧
    (∀ (V : VerifyOracle) (t : Transaction) (sg e : String), t.sender_pub ≠ "SYSTEM" →
      t.signature = some sg → V t.sender_pub t.to_dict sg = Except.error e →
      t.is_valid V = false) := by
  refine ⟨fun V t h => is_valid_system V t h, ?_, ?_⟩
  · intro V t hns
    unfold Transaction.is_valid
    rw [if_neg hns]
    cases hsig : t.signature with
    | none =>
      simp
    | some sg =>
      by_cases hempty : sg = ""
      · subst hempty
        simp
      · cases hV : V t.sender_pub t.to_dict sg with
        | ok u =>
          cases u
          simp [hV, hempty]
        | error e =>
          simp [hV, hempty]
  · intro V t sg e hns hsig hV
    unfold Transaction.is_valid
    rw [if_neg hns, hsig]
    by_cases hempty : sg = ""
    · subst hempty
      simp
    · simp [hV, hempty]

/-- Claim C6, witness: a mint-sentinel transaction is valid under an always-raising
oracle; a user transaction whose verification raises is judged invalid, not aborted. -/
theorem is_valid_characterization_witness :
    Transaction.is_valid Vno ⟨"SYSTEM", "B", 1, none, 0⟩ = true ∧
    Transaction.is_valid Vno txBadSig = false :=
  ⟨is_valid_characterization.1 Vno ⟨"SYSTEM", "B", 1, none, 0⟩ rfl,
   is_valid_characterization.2.2 Vno txBadSig "sig" "unparsable key or signature"
     (by decide) rfl rfl⟩

/-- Claim C7, counterexample: the three failure modes are NOT distinguishable from
`add_transaction`'s result — missing fields raise a `ValueError` (a propagated
exception, not a returned outcome), while an invalid signature (under `Vno`) and an
insufficient balance (under `Vok`, balance 0 < amount 1) both return the identical
value `(False, unchanged state)`. -/
theorem rejection_reasons_conflated :
    s0.add_transaction Vno txNoSender =
      Except.error "Transaction must include sender and recipient public keys" ∧
    Transaction.is_valid Vno txBadSig = false ∧
    s0.add_transaction Vno txBadSig = Except.ok (false, s0) ∧
    Transaction.is_valid Vok txBadSig = true ∧
    s0.get_balance_of_address txBadSig.sender_pub < txBadSig.amount ∧
    s0.add_transaction Vok txBadSig = Except.ok (false, s0) := by
  exact ⟨by decide, by decide, by decide, by decide, by decide, by decide⟩

/-- Claim C7, amended: the actual outcome interface of `add_transaction` — missing
sender/receiver raises `ValueError`; an invalid signature and an insufficient balance
both return the bare boolean `False` with the state unchanged (distinguishable only via
printed messages, not the returned value); acceptance returns `True` and appends. -/
theorem add_transaction_outcomes (V : VerifyOracle) (bc : Blockchain) (t : Transaction) :
    (t.sender_pub = "" ∨ t.recipient_pub = "" →
      bc.add_transaction V t =
        Except.error "Transaction must include sender and recipient public keys") ∧
    (¬(t.sender_pub = "" ∨ t.recipient_pub = "") → t.is_valid V = false →
      bc.add_transaction V t = Except.ok (false, bc)) ∧
    (¬(t.sender_pub = "" ∨ t.recipient_pub = "") → t.is_valid V = true →
      t.sender_pub ≠ "SYSTEM" → bc.get_balance_of_address t.sender_pub < t.amount →
      bc.add_transaction V t = Except.ok (false, bc)) ∧
    (¬(t.sender_pub = "" ∨ t.recipient_pub = "") → t.is_valid V = true →
      (t.sender_pub = "SYSTEM" ∨ bc.get_balance_of_address t.sender_pub ≥ t.amount) →
      bc.add_transaction V t =
        Except.ok (true, { bc with pending_transactions := bc.pending_transactions ++ [t] })) := by
  refine ⟨?_, ?_, ?_, ?_⟩
  · intro h1
    unfold Blockchain.add_transaction
    rw [if_pos h1]
  · intro h1 hval
    unfold Blockchain.add_transaction
    rw [if_neg h1, if_pos hval]
  · intro h1 hval h3 h4
    unfold Blockchain.add_transaction
    rw [if_neg h1, if_neg (by rw [hval]; decide), if_pos ⟨h3, h4⟩]
  · intro h1 hval h3
    have hcond : ¬(t.sender_pub ≠ "SYSTEM" ∧
        bc.get_balance_of_address t.sender_pub < t.amount) := by
      rcases h3 with h | h
      · exact fun hc => hc.1 h
      · exact fun hc => absurd hc.2 (not_lt.mpr h)
    unfold Blockchain.add_transaction
    rw [if_neg h1, if_neg (by rw [hval]; decide), if_neg hcond]

/-- Claim C7, witness: the raising branch and the success branch at concrete inputs. -/
theorem add_transaction_outcomes_witness :
    s0.add_transaction Vok txMint =
      Except.ok (true, { s0 with pending_transactions :=
        s0.pending_transactions ++ [txMint] }) ∧
    s0.add_transaction Vok ⟨"A", "", 1, none, 0⟩ =
      Except.error "Transaction must include sender and recipient public keys" :=
  ⟨(add_transaction_outcomes Vok s0 txMint).2.2.2 (by decide) (by decide) (Or.inl rfl),
   (add_transaction_outcomes Vok s0 ⟨"A", "", 1, none, 0⟩).1 (Or.inr rfl)⟩

/-- Claim C3, counterexample: a chain built by the public operations whose genesis
block's stored `nonce` field is then mutated (with every other field intact) still
validates — `is_chain_valid` starts at index 1 and never rechecks the genesis block's
own fields, so the mutation is not detected and no offending index is reported. -/
theorem genesis_mutation_undetected :
    applyOps Vno Hw s0 [Op.mine "M" 0 0 0] = some sC1 ∧
    g0mut = { g0 with nonce := 5 } ∧
    g0mut.nonce ≠ g0.nonce ∧
    sC1.chain = [g0, b1] ∧
    Blockchain.is_chain_valid Vno Hw { sC1 with chain := [g0mut, b1] } = true ∧
    Blockchain.firstInvalidIndex Vno Hw { sC1 with chain := [g0mut, b1] } = none := by
  exact ⟨by decide, by decide, by decide, rfl, by decide, by decide⟩

/-- Claim C3, amended: an unmutated reachable chain validates true; replacing the
stored block at any index `i ≥ 1` by a block whose stored hash no longer matches its
recomputed hash (the effect of mutating any hashed field — a transaction's amount, the
nonce, the previous_hash — absent a hash collision, or of mutating the stored hash
itself) makes `is_chain_valid` return false with `i` reported as the offending index.
Genesis content fields at index 0 are never rechecked (only the genesis stored hash is
constrained, through block 1's linkage check). -/
theorem chain_validation_behavior (V : VerifyOracle) (H : HashFn) (s : Blockchain)
    (hreach : Reachable V H s) :
    s.is_chain_valid V H = true ∧
    ∀ (i : ℕ) (b2 : Block), 1 ≤ i → i < s.chain.length →
      b2.hash ≠ b2.calculate_hash H →
      Blockchain.firstInvalidIndex V H { s with chain := s.chain.set i b2 } = some i ∧
      Blockchain.is_chain_valid V H { s with chain := s.chain.set i b2 } = false := by
  obtain ⟨⟨g, rest, hc, hgood⟩, -⟩ := reachable_inv V H s hreach
  have hnone : checkFrom V H g rest 1 = none :=
    checkFrom_none V H s.difficulty rest g 1 hgood
  constructor
  · simp [Blockchain.is_chain_valid, Blockchain.firstInvalidIndex, hc, hnone]
  · intro i b2 h1 h2 hbad
    obtain ⟨k, rfl⟩ : ∃ k, i = k + 1 := ⟨i - 1, by omega⟩
    have hk : k < rest.length := by
      rw [hc] at h2
      simp only [List.length_cons] at h2
      omega
    have hset : s.chain.set (k + 1) b2 = g :: rest.set k b2 := by
      rw [hc]
      rfl
    have hbroken := checkFrom_broken V H rest g k 1 b2 hk hnone hbad
    have hfii : Blockchain.firstInvalidIndex V H
        { s with chain := s.chain.set (k + 1) b2 } = some (k + 1) := by
      have hm : Blockchain.firstInvalidIndex V H
          { s with chain := s.chain.set (k + 1) b2 } =
          checkFrom V H g (rest.set k b2) 1 := by
        simp only [Blockchain.firstInvalidIndex, hset]
      rw [hm, hbroken]
      congr 1
      omega
    refine ⟨hfii, ?_⟩
    unfold Blockchain.is_chain_valid
    rw [hfii]
    rfl

/-- Claim C3, witness at a concrete input: the reachable two-block chain validates; a
nonce mutation of block 1 (stored hash kept) is reported at index 1. -/
theorem chain_validation_behavior_witness :
    Blockchain.is_chain_valid Vno Hw sC1 = true ∧
    Blockchain.firstInvalidIndex Vno Hw { sC1 with chain := sC1.chain.set 1 b1mut } = some 1 ∧
    Blockchain.is_chain_valid Vno Hw { sC1 with chain := sC1.chain.set 1 b1mut } = false := by
  have h := chain_validation_behavior Vno Hw sC1 ⟨1, 50, 0, [Op.mine "M" 0 0 0], by decide⟩
  exact ⟨h.1, (h.2 1 b1mut (by decide) (by decide) (by decide)).1,
    (h.2 1 b1mut (by decide) (by decide) (by decide)).2⟩

/-- Claim C4: a transaction from a non-mint sender whose amount exceeds the sender's
balance (chain plus pending pool) is never accepted — the call either raises (missing
fields) or returns `False` with the state unchanged — and, as long as it is not
resubmitted, it appears in no pending pool and no block of any later state. -/
theorem overspend_rejected (V : VerifyOracle) (H : HashFn) (bc : Blockchain)
    (t : Transaction) (hS : t.sender_pub ≠ "SYSTEM")
    (hO : bc.get_balance_of_address t.sender_pub < t.amount) :
    (bc.add_transaction V t =
        Except.error "Transaction must include sender and recipient public keys" ∨
      bc.add_transaction V t = Except.ok (false, bc)) ∧
    ∀ (ops : List Op) (s2 : Blockchain),
      applyOps V H bc ops = some s2 →
      Op.submit t ∉ ops →
      t ∉ bc.pending_transactions →
      (∀ blk ∈ bc.chain, t ∉ blk.transactions) →
      t ∉ s2.pending_transactions ∧ ∀ blk ∈ s2.chain, t ∉ blk.transactions := by
  constructor
  · unfold Blockchain.add_transaction
    split_ifs with h1 h2 h3
    · exact Or.inl rfl
    · exact Or.inr rfl
    · exact Or.inr rfl
    · exact absurd ⟨hS, hO⟩ h3
  · intro ops s2 h hmem hp hchain
    exact absent_stays_absent V H t hS ops bc s2 h hmem hp hchain

/-- Claim C4, witness: an overspending transaction on a fresh chain is rejected. -/
theorem overspend_rejected_witness :
    s0.add_transaction Vok txOver =
        Except.error "Transaction must include sender and recipient public keys" ∨
      s0.add_transaction Vok txOver = Except.ok (false, s0) :=
  (overspend_rejected Vok Hw s0 txOver (by decide) (by decide)).1

/-- Claim C5: newly constructed blocks store a content-consistent hash; whenever
`Block.mine(difficulty)` returns, the stored hash has at least `difficulty` leading
zero hex characters and recomputing `calculate_hash` reproduces it exactly; and both
properties hold of every block except the genesis in every reachable chain. -/
theorem mined_block_meets_difficulty (V : VerifyOracle) (H : HashFn) :
    (∀ (index : ℕ) (txs : List Transaction) (p : String) (ts : ℕ),
      (Block.make H index txs p ts).hash = (Block.make H index txs p ts).calculate_hash H) ∧
    (∀ (d fuel : ℕ) (b b2 : Block), b.hash = b.calculate_hash H →
      Block.mineAux H d fuel b = some b2 →
      strStartsWith b2.hash (targetOf d) = true ∧ b2.hash = b2.calculate_hash H) ∧
    (∀ s, Reachable V H s → ∀ b ∈ s.chain.tail,
      strStartsWith b.hash (targetOf s.difficulty) = true ∧ b.hash = b.calculate_hash H) := by
  refine ⟨Block.make_hash_consistent H, ?_, ?_⟩
  · intro d fuel b b2 hcons h
    have hmk := mineAux_spec H d fuel b b2 hcons h
    exact ⟨hmk.2.1, hmk.1⟩
  · intro s hreach b hb
    obtain ⟨⟨g, rest, hc, hgood⟩, -⟩ := reachable_inv V H s hreach
    rw [hc, List.tail_cons] at hb
    have hgb := chainGood_mem V H s.difficulty rest g hgood b hb
    exact ⟨hgb.2.1, hgb.1⟩

/-- Claim C5, witness: a concrete mining run and the sealed block of a concrete
reachable chain. -/
theorem mined_block_meets_difficulty_witness :
    (strStartsWith g0.hash (targetOf 1) = true ∧ g0.hash = g0.calculate_hash Hw) ∧
    (strStartsWith b1.hash (targetOf sC1.difficulty) = true ∧
      b1.hash = b1.calculate_hash Hw) :=
  ⟨(mined_block_meets_difficulty Vno Hw).2.1 1 0 g0 g0 (by decide) (by decide),
   (mined_block_meets_difficulty Vno Hw).2.2 sC1
     ⟨1, 50, 0, [Op.mine "M" 0 0 0], by decide⟩ b1 (by decide)⟩

/-- Claim C8: in every state reachable from construction by `add_transaction` and
`mine_pending_transactions` calls, each block's stored `previous_hash` equals the
stored `hash` of its predecessor. -/
theorem chain_linkage_invariant (V : VerifyOracle) (H : HashFn) (s : Blockchain)
    (hreach : Reachable V H s) (i : ℕ) (h : i + 1 < s.chain.length) :
    (s.chain.get ⟨i + 1, h⟩).previous_hash = (s.chain.get ⟨i, Nat.lt_of_succ_lt h⟩).hash := by
  obtain ⟨⟨g, rest, hc, hgood⟩, -⟩ := reachable_inv V H s hreach
  have key : ∀ (l : List Block), l = g :: rest → ∀ (j : ℕ) (hj : j + 1 < l.length),
      (l.get ⟨j + 1, hj⟩).previous_hash = (l.get ⟨j, Nat.lt_of_succ_lt hj⟩).hash := by
    intro l hl
    subst hl
    exact chainGood_get V H s.difficulty rest g hgood
  exact key s.chain hc i h

/-- Claim C8, witness on a concrete reachable two-block chain. -/
theorem chain_linkage_invariant_witness :
    (sC1.chain.get ⟨0 + 1, by decide⟩).previous_hash =
      (sC1.chain.get ⟨0, by decide⟩).hash :=
  chain_linkage_invariant Vno Hw sC1 ⟨1, 50, 0, [Op.mine "M" 0 0 0], by decide⟩ 0 (by decide)

/-- Claim C9: over any address set covering all non-reward senders and recipients, the
balances derived by `get_balance_of_address`, with the contribution of the reward
(mint-sentinel) transactions removed, sum to zero — each non-reward transaction of
amount `a` contributes exactly `-a` to its sender and `+a` to its recipient. -/
theorem balance_conservation (bc : Blockchain) (S : Finset String)
    (hcov : ∀ t ∈ allTxs bc, t.sender_pub ≠ "SYSTEM" →
      t.sender_pub ∈ S ∧ t.recipient_pub ∈ S) :
    ∑ a ∈ S, (bc.get_balance_of_address a - rewardDelta bc a) = 0 := by
  have hsplit : ∀ a : String, bc.get_balance_of_address a - rewardDelta bc a =
      (((allTxs bc).filter (fun t => !(t.sender_pub == "SYSTEM"))).map (txDelta a)).sum := by
    intro a
    rw [get_balance_eq,
      map_sum_filter_split (fun t => t.sender_pub == "SYSTEM") (txDelta a) (allTxs bc)]
    unfold rewardDelta
    ring
  simp only [hsplit]
  rw [finset_listsum_swap]
  apply List.sum_eq_zero
  intro x hx
  simp only [List.mem_map] at hx
  obtain ⟨t, ht, rfl⟩ := hx
  have htmem : t ∈ allTxs bc := List.mem_of_mem_filter ht
  have htns : t.sender_pub ≠ "SYSTEM" := by
    have hf := List.of_mem_filter ht
    simpa using hf
  obtain ⟨hs, hr⟩ := hcov t htmem htns
  exact txDelta_total_zero S t hs hr

/-- Claim C9, witness on the concrete mined chain (its only transaction is the
reward, so the reward-free balances over the covering set sum to zero). -/
theorem balance_conservation_witness :
    ∑ a ∈ ({"M"} : Finset String),
      (sC1.get_balance_of_address a - rewardDelta sC1 a) = 0 :=
  balance_conservation sC1 {"M"} (by decide)

/-- Claim C10: any caller may submit a mint-sentinel transaction of any positive
amount to any ordinary recipient; it is accepted into the pending pool with no
signature and no balance check, and the sentinel's derived balance drops by exactly
that amount — unbounded minting through the public interface. -/
theorem system_sender_mints_freely (V : VerifyOracle) (bc : Blockchain)
    (recip : String) (amt : ℚ) (ts : ℕ)
    (h1 : recip ≠ "") (h2 : recip ≠ "SYSTEM") (_h3 : 0 < amt) :
    bc.add_transaction V ⟨"SYSTEM", recip, amt, none, ts⟩ =
      Except.ok (true,
        { bc with pending_transactions :=
            bc.pending_transactions ++ [⟨"SYSTEM", recip, amt, none, ts⟩] }) ∧
    Blockchain.get_balance_of_address
        { bc with pending_transactions :=
            bc.pending_transactions ++ [⟨"SYSTEM", recip, amt, none, ts⟩] } "SYSTEM" =
      bc.get_balance_of_address "SYSTEM" - amt := by
  constructor
  · exact add_transaction_system_accepted V bc ⟨"SYSTEM", recip, amt, none, ts⟩ rfl h1
  · rw [get_balance_append_pending]
    have hdelta : txDelta "SYSTEM" ⟨"SYSTEM", recip, amt, none, ts⟩ = -amt := by
      unfold txDelta
      simp [h2]
    rw [hdelta]
    ring

/-- Claim C10, witness at a concrete input. -/
theorem system_sender_mints_freely_witness :
    s0.add_transaction Vno ⟨"SYSTEM", "B", 7, none, 2⟩ =
      Except.ok (true, { s0 with pending_transactions :=
        s0.pending_transactions ++ [⟨"SYSTEM", "B", 7, none, 2⟩] }) ∧
    Blockchain.get_balance_of_address
        { s0 with pending_transactions :=
          s0.pending_transactions ++ [⟨"SYSTEM", "B", 7, none, 2⟩] } "SYSTEM" =
      s0.get_balance_of_address "SYSTEM" - 7 :=
  system_sender_mints_freely Vno s0 "B" 7 2 (by decide) (by decide) (by decide)

end BK
